import Mathlib

/-!
Verification of the SQL-compilation core (`QueryContext`, `ExprTranslator`
and the rewrite rules of `ibis/backends/base/sql/compiler/translator.py`)
against its natural-language specification.

The development is a shallow embedding:

* `QueryContext` trees become `St`: a count of contexts plus a map from
  context id to a record holding the parent pointer, the alias table
  (`table_refs`), the extracted-subexpression set and the subquery memo.
  Context ids are assigned in creation order, so a parent id is always
  smaller than the id of the contexts created from it by `subcontext`.
  Python dicts become in-place-update association lists (`setKV`), sets
  become membership lists.
* Walking the parent chain (`_contexts`, `top_context`) becomes `chain`,
  computed with a structural fuel argument (fuel `c` suffices because
  parent ids strictly decrease), so every definition evaluates by `decide`.
* The expression AST of the translator becomes the inductive `Node`; the
  dialect-owned operation registry is an abstract function
  `OpTag → Option (Node → String)`, and the external `compiler.to_sql`
  invoked by `_compile_subquery` is an abstract `CNode → String`.
* Python exceptions become `Except` error values.
-/

/-! ### Decimal rendering of alias indices (`f't{i:d}'`) -/

/-- The decimal digit characters, as produced by Python's `f'{i:d}'`. -/
def digitChar : Nat → Char
  | 0 => '0' | 1 => '1' | 2 => '2' | 3 => '3' | 4 => '4'
  | 5 => '5' | 6 => '6' | 7 => '7' | 8 => '8' | 9 => '9'
  | _ => '*'

/-- Numeric value of a decimal digit character (left inverse of `digitChar`). -/
def charVal : Char → Nat
  | '0' => 0 | '1' => 1 | '2' => 2 | '3' => 3 | '4' => 4
  | '5' => 5 | '6' => 6 | '7' => 7 | '8' => 8 | '9' => 9
  | _ => 99

/-- Little-endian decimal digits of `n`; the fuel (first argument) is an
embedding artifact making the recursion structural, and any fuel above `n`
yields the digits of `n`. -/
def decDigitsF : Nat → Nat → List Char
  | 0, _ => []
  | f+1, n => if n < 10 then [digitChar n] else digitChar (n % 10) :: decDigitsF f (n / 10)

/-- Value of a little-endian digit-character list. -/
def parseLE : List Char → Nat
  | [] => 0
  | c :: t => charVal c + 10 * parseLE t

/-- Decimal rendering of a natural number, as Python's `f'{i:d}'`. -/
def natDecimal (n : Nat) : String := ⟨(decDigitsF (n+1) n).reverse⟩

/-- The alias string `f't{i:d}'` assigned by `QueryContext.make_alias`. -/
def mkAliasStr (i : Nat) : String := "t" ++ natDecimal i

/-! ### The `QueryContext` tree -/

/-- A node as seen by `QueryContext`: an opaque key with value equality
(ibis nodes are hashable immutable values).  `passQuery = some q` models a
node that is an `ops.SQLQueryResult` or `ops.SQLStringView`, whose `query`
attribute holds the pre-rendered text `q`; `passQuery = none` models every
other node. -/
structure CNode where
  id : Nat
  passQuery : Option String := none
deriving DecidableEq

/-- Per-scope state of one `QueryContext`: parent link, alias table
(`table_refs`), extracted-subexpression set (`extracted_subexprs`) and
subquery memo (`subquery_memo`).  Fields of the Python class that no
verified operation reads (`compiler`, `indent`, `always_alias`, `query`,
`params`) are omitted. -/
structure Ctx where
  parent : Option Nat
  tbl : List (CNode × String)
  extracted : List CNode
  memo : List (CNode × String)
deriving DecidableEq

/-- A context with no parent and empty tables, as built by
`QueryContext.__init__`. -/
def emptyCtx : Ctx := ⟨none, [], [], []⟩

/-- The whole context tree: contexts are addressed by creation index;
`ctxs i` for `i ≥ numCtxs` is dead storage fixed to `emptyCtx`. -/
structure St where
  numCtxs : Nat
  ctxs : Nat → Ctx

/-- The initial state: a single root context, as at the start of a
compilation. -/
def s0 : St := ⟨1, fun _ => emptyCtx⟩

def parentOf (s : St) (c : Nat) : Option Nat := (s.ctxs c).parent

def tblOf (s : St) (c : Nat) : List (CNode × String) := (s.ctxs c).tbl

def extractedOf (s : St) (c : Nat) : List CNode := (s.ctxs c).extracted

def memoOf (s : St) (c : Nat) : List (CNode × String) := (s.ctxs c).memo

/-- Parent-chain walk (`QueryContext._contexts` with `parents=True`):
`c` itself followed by its ancestors, nearest first.  The fuel makes the
recursion structural; fuel `c` suffices because parent ids strictly
decrease. -/
def chainF : Nat → St → Nat → List Nat
  | 0, _, c => [c]
  | f+1, s, c =>
    c :: (match parentOf s c with
          | none => []
          | some p => chainF f s p)

/-- The contexts visible from `c`: itself and its ancestors, nearest
first. -/
def chain (s : St) (c : Nat) : List Nat := chainF c s c

/-- `dict.get` / `dict.__getitem__` on an association list. -/
def lookupKV : List (CNode × String) → CNode → Option String
  | [], _ => none
  | (k, v) :: t, n => if k = n then some v else lookupKV t n

/-- `dict.__setitem__`: update the value in place if the key is present,
else append the binding. -/
def setKV : List (CNode × String) → CNode → String → List (CNode × String)
  | [], n, a => [(n, a)]
  | (k, v) :: t, n, a => if k = n then (k, a) :: t else (k, v) :: setKV t n a

/-- Replace the context record at index `c`. -/
def updCtx (s : St) (c : Nat) (f : Ctx → Ctx) : St :=
  ⟨s.numCtxs, fun i => if i = c then f (s.ctxs i) else s.ctxs i⟩

/-- `QueryContext.subcontext()` invoked on context `p`: a fresh context
whose parent is `p`. -/
def subcontext (s : St) (p : Nat) : St :=
  ⟨s.numCtxs + 1, fun i => if i = s.numCtxs then { emptyCtx with parent := some p } else s.ctxs i⟩

/-- All `table_refs` entries visible from `c`: own table first, then the
ancestors' tables, nearest first. -/
def chainTbl (s : St) (c : Nat) : List (CNode × String) :=
  ((chain s c).map (tblOf s)).flatten

/-- Total number of aliases assigned along the visible chain — the index
`i` accumulated by `make_alias` when no ancestor already holds the node. -/
def chainCount (s : St) (c : Nat) : Nat := (chainTbl s c).length

/-- The alias strings visible from `c` (self + ancestors). -/
def chainAliases (s : St) (c : Nat) : List String := (chainTbl s c).map Prod.snd

/-- First alias found for `n` scanning the tables of the given context
ids in order — the ancestor walk of `make_alias`. -/
def lookupChainTbl (s : St) (ids : List Nat) (n : CNode) : Option String :=
  ids.findSome? (fun i => lookupKV (tblOf s i) n)

/-- `QueryContext.set_ref(node, alias)`. -/
def setRef (s : St) (c : Nat) (n : CNode) (a : String) : St :=
  updCtx s c (fun ctx => { ctx with tbl := setKV ctx.tbl n a })

/-- `QueryContext.make_alias(node)` called on context `c`: walk the strict
ancestors (the walk skips `c` itself, `islice(self._contexts(), 1, None)`);
reuse the first alias found, otherwise assign the fresh alias
`t{len(self) + Σ ancestor lens}` — which equals `t{chainCount}` since the
walk exhausted every ancestor. -/
def makeAlias (s : St) (c : Nat) (n : CNode) : St :=
  match lookupChainTbl s ((chain s c).tail) n with
  | some a => setRef s c n a
  | none => setRef s c n (mkAliasStr (chainCount s c))

/-- `QueryContext.top_context`: the root of the parent chain. -/
def topOf (s : St) (c : Nat) : Nat := (chain s c).getLastD c

/-- `QueryContext.is_extracted(node)`: membership in the **top** context's
extracted set. -/
def isExtracted (s : St) (c : Nat) (n : CNode) : Prop :=
  n ∈ extractedOf s (topOf s c)

instance (s : St) (c : Nat) (n : CNode) : Decidable (isExtracted s c n) :=
  inferInstanceAs (Decidable (n ∈ extractedOf s (topOf s c)))

/-- `QueryContext.set_extracted(node)` on context `c`: add the node to the
**calling** context's extracted set, then `make_alias` in the calling
context. -/
def setExtracted (s : St) (c : Nat) (n : CNode) : St :=
  makeAlias (updCtx s c (fun ctx => { ctx with extracted := n :: ctx.extracted })) c n

/-- `QueryContext.get_ref(node)`: if the node is extracted, resolve from
the top context's alias table, else from the local one; a miss returns
`none` (`dict.get`). -/
def getRef (s : St) (c : Nat) (n : CNode) : Option String :=
  if isExtracted s c n then lookupKV (tblOf s (topOf s c)) n
  else lookupKV (tblOf s c) n

/-- Store a compiled text in a context's `subquery_memo`. -/
def setMemo (s : St) (c : Nat) (n : CNode) (r : String) : St :=
  updCtx s c (fun ctx => { ctx with memo := setKV ctx.memo n r })

/-- `QueryContext.get_compiled_expr(node)` on context `c`.  `compile`
abstracts the external `compiler.to_sql`; `_compile_subquery` first spawns
a subcontext, which the embedding records.  Returns the new state, the
text, and whether the external compile was invoked. -/
def getCompiledExpr (compile : CNode → String) (s : St) (c : Nat) (n : CNode) :
    St × String × Bool :=
  match lookupKV (memoOf s (topOf s c)) n with
  | some r => (s, r, false)
  | none =>
    match n.passQuery with
    | some q => (setMemo s (topOf s c) n q, q, false)
    | none =>
      let s1 := subcontext s c
      (setMemo s1 (topOf s1 c) n (compile n), compile n, true)

/-! ### Operation sequences over a context tree -/

/-- One API call on the context tree: `subcontext` on context `p`,
`make_alias`, `set_extracted`, or `get_compiled_expr` on context `c`. -/
inductive Ev where
  | sub (p : Nat)
  | mk (c : Nat) (n : CNode)
  | extractE (c : Nat) (n : CNode)
  | compileE (c : Nat) (n : CNode)
deriving DecidableEq

/-- Apply one call; calls naming a context that does not exist are no-ops
(the Python API can only be invoked on existing context objects). -/
def stepEv (compile : CNode → String) (s : St) : Ev → St
  | .sub p => if p < s.numCtxs then subcontext s p else s
  | .mk c n => if c < s.numCtxs then makeAlias s c n else s
  | .extractE c n => if c < s.numCtxs then setExtracted s c n else s
  | .compileE c n => if c < s.numCtxs then (getCompiledExpr compile s c n).1 else s

/-- Run a sequence of calls from a state. -/
def runEv (compile : CNode → String) (s : St) (es : List Ev) : St :=
  es.foldl (stepEv compile) s

/-- Whether a call is one of the two context-tree-building calls
(`subcontext` / `make_alias`). -/
def isCtxEv : Ev → Bool
  | .sub _ => true
  | .mk _ _ => true
  | _ => false

/-- The nodes passed to the `make_alias` calls of a sequence. -/
def mkNodes (es : List Ev) : List CNode :=
  es.filterMap (fun e => match e with | .mk _ n => some n | _ => none)

/-- Well-formedness of a context tree: parent ids strictly decrease (a
context's parent was created before it), dead storage is empty, the root
exists, and every non-root context has a parent — all facts the Python
object graph guarantees by construction. -/
def Valid (s : St) : Prop :=
  (∀ i p, parentOf s i = some p → p < i) ∧
  (∀ i, s.numCtxs ≤ i → s.ctxs i = emptyCtx) ∧
  1 ≤ s.numCtxs ∧
  (∀ i, 1 ≤ i → i < s.numCtxs → (parentOf s i).isSome)

/-- `n` has no alias anywhere in the tree. -/
def NodeFresh (s : St) (n : CNode) : Prop :=
  ∀ i, i < s.numCtxs → lookupKV (tblOf s i) n = none

/-- No proper descendant of `c` has assigned an alias yet (`c` appears in
the strict ancestor chain of `d` exactly when `d` is a proper descendant
of `c`). -/
def AncOK (s : St) (c : Nat) : Prop :=
  ∀ d, d < s.numCtxs → c ∈ (chain s d).tail → tblOf s d = []

instance (s : St) (c : Nat) : Decidable (AncOK s c) :=
  Nat.decidableBallLT _ _

/-- Ancestor-first discipline for a call sequence: each `make_alias` call
happens while the calling context's proper descendants still have empty
alias tables. -/
def AncFirst (compile : CNode → String) : St → List Ev → Prop
  | _, [] => True
  | s, e :: es =>
    (match e with
     | .mk c _ => AncOK s c
     | _ => True) ∧ AncFirst compile (stepEv compile s e) es

def decAncFirst (compile : CNode → String) (s : St) :
    (es : List Ev) → Decidable (AncFirst compile s es)
  | [] => isTrue trivial
  | e :: es =>
    have h1 : Decidable (match e with | .mk c _ => AncOK s c | _ => True) := by
      cases e <;> dsimp <;> infer_instance
    have h2 : Decidable (AncFirst compile (stepEv compile s e) es) :=
      decAncFirst compile (stepEv compile s e) es
    @instDecidableAnd _ _ h1 h2

instance (compile : CNode → String) (s : St) (es : List Ev) :
    Decidable (AncFirst compile s es) := decAncFirst compile s es

/-! ### The expression translator and the rewrite rules -/

/-- Closedness flag of `ops.Bucket`. -/
inductive Closed where
  | left
  | right
deriving DecidableEq

/-- Output datatypes, to the granularity the translator inspects
(`dt.Struct`, `dt.Map`, `dt.Interval`, `dt.Integer`; everything else is
opaque). -/
inductive DTy where
  | int
  | boolean
  | str
  | interval (unit : String)
  | struct
  | map
  | other
deriving DecidableEq

/-- The operator AST, covering the node kinds the translator and its
rewrite rules inspect.  `tableNode` stands for every `ops.TableNode`
subclass; composite host values bound to parameters are abstracted to
`Int` payloads.  The optional display name carried by some constructors
is modelled from the spec: nodes have "an optional display name", managed
by the excluded expression layer (`to_expr`/`has_name`/`get_name`/`name`). -/
inductive Node where
  | scalarParam (id : Nat) (dt : DTy)
  | tableNode (id : Nat)
  | lit (v : Int) (dt : DTy)
  | structLit (v : Int) (dt : DTy)
  | mapLit (v : Int) (dt : DTy)
  | litS (s : String)
  | column (id : Nat) (dt : DTy) (nm : Option String)
  | less (a b : Node)
  | lessEqual (a b : Node)
  | greaterEqual (a b : Node)
  | equals (a b : Node)
  | andN (a b : Node)
  | maxN (a : Node)
  | minN (a : Node)
  | stringFind (hay needle : Node)
  | stringContains (hay needle : Node)
  | cast (a : Node) (tgt : DTy)
  | intervalFromInteger (a : Node) (unit : String)
  | anyN (a : Node)
  | notAnyN (a : Node)
  | allN (a : Node)
  | notAllN (a : Node)
  | bucket (arg : Node) (buckets : List Int) (closed : Closed)
      (closeExtreme includeUnder includeOver : Bool)
  | categoryLabel (arg : Node) (labels : List String) (nulls : Option String)
      (nm : Option String)
  | searchedCase (conds : List Node) (results : List Node) (nm : Option String)
  | simpleCase (base : Node) (cases : List Node) (results : List Node)
      (els : Option Node) (nm : Option String)

/-- The discriminant of a node — `type(op)`, the dispatch and rewrite
key. -/
inductive OpTag where
  | scalarParamT | tableNodeT | litT | structLitT | mapLitT | litST | columnT
  | lessT | lessEqualT | greaterEqualT | equalsT | andT | maxT | minT
  | stringFindT | stringContainsT | castT | intervalFromIntegerT
  | anyT | notAnyT | allT | notAllT
  | bucketT | categoryLabelT | searchedCaseT | simpleCaseT
deriving DecidableEq

def discr : Node → OpTag
  | .scalarParam _ _ => .scalarParamT
  | .tableNode _ => .tableNodeT
  | .lit _ _ => .litT
  | .structLit _ _ => .structLitT
  | .mapLit _ _ => .mapLitT
  | .litS _ => .litST
  | .column _ _ _ => .columnT
  | .less _ _ => .lessT
  | .lessEqual _ _ => .lessEqualT
  | .greaterEqual _ _ => .greaterEqualT
  | .equals _ _ => .equalsT
  | .andN _ _ => .andT
  | .maxN _ => .maxT
  | .minN _ => .minT
  | .stringFind _ _ => .stringFindT
  | .stringContains _ _ => .stringContainsT
  | .cast _ _ => .castT
  | .intervalFromInteger _ _ => .intervalFromIntegerT
  | .anyN _ => .anyT
  | .notAnyN _ => .notAnyT
  | .allN _ => .allT
  | .notAllN _ => .notAllT
  | .bucket _ _ _ _ _ _ => .bucketT
  | .categoryLabel _ _ _ _ => .categoryLabelT
  | .searchedCase _ _ _ => .searchedCaseT
  | .simpleCase _ _ _ _ _ => .simpleCaseT

/-- Modelled from the spec: the optional display name of a node ("an
optional display name"; `expr.has_name()` / `expr.get_name()` /
`expr.name(...)` live in the excluded expression layer).  Constructors the
rewrite rules name-annotate carry it as a field. -/
def nameOf : Node → Option String
  | .column _ _ nm => nm
  | .categoryLabel _ _ _ nm => nm
  | .searchedCase _ _ nm => nm
  | .simpleCase _ _ _ _ nm => nm
  | _ => none

/-- Modelled from the spec: the output type computed by the excluded
construction layer ("a node has ... an output type"), to the granularity
the rewrite rules inspect. -/
def outDtype : Node → DTy
  | .scalarParam _ dt => dt
  | .lit _ dt => dt
  | .structLit _ dt => dt
  | .mapLit _ dt => dt
  | .litS _ => .str
  | .column _ dt _ => dt
  | .cast _ tgt => tgt
  | .intervalFromInteger _ u => .interval u
  | .less _ _ => .boolean
  | .lessEqual _ _ => .boolean
  | .greaterEqual _ _ => .boolean
  | .equals _ _ => .boolean
  | .andN _ _ => .boolean
  | _ => .other

/-- The `@rewrites(ops.Bucket)` rule `_bucket`, branch for branch.  The
CASE builder (`ibis.case()...when(...).end()`) is modelled from the spec:
the produced node holds the branch conditions and the integer bucket-index
results in emission order, with no else-branch ("unmatched → null"), and
carries the bucketed argument's display name when it has one. -/
def bucketRw : Node → Node
  | .bucket arg buckets closed closeExtreme includeUnder includeOver =>
    let lCmp : Node → Node → Node :=
      fun a b => if closed = .left then .lessEqual a b else .less a b
    let rCmp : Node → Node → Node :=
      fun a b => if closed = .left then .less a b else .lessEqual a b
    let userNumBuckets : Int := (buckets.length : Int) - 1
    let underBs : List (Node × Nat) :=
      if includeUnder then
        let cmp : Node → Node → Node :=
          if userNumBuckets > 0 then
            (if closeExtreme then fun a b => Node.less a b else rCmp)
          else
            (if closed = .right then fun a b => Node.lessEqual a b
             else fun a b => Node.less a b)
        [(cmp arg (.lit (buckets.headD 0) .int), 0)]
      else []
    let pairBs : List (Node × Nat) :=
      (buckets.zip buckets.tail).enum.map (fun ji =>
        let j : Nat := ji.1
        let lower := ji.2.1
        let upper := ji.2.2
        let cond :=
          if closeExtreme ∧ ((closed = .right ∧ (j : Int) = 0) ∨
              (closed = .left ∧ (j : Int) = userNumBuckets - 1)) then
            Node.andN (.lessEqual (.lit lower .int) arg) (.lessEqual arg (.lit upper .int))
          else
            Node.andN (lCmp (.lit lower .int) arg) (rCmp arg (.lit upper .int))
        (cond, underBs.length + j))
    let overBs : List (Node × Nat) :=
      if includeOver then
        let cmp : Node → Node → Node :=
          if userNumBuckets > 0 then
            (if closeExtreme then fun a b => Node.less a b else lCmp)
          else
            (if closed = .right then fun a b => Node.less a b
             else fun a b => Node.lessEqual a b)
        [(cmp (.lit (buckets.getLastD 0) .int) arg, underBs.length + pairBs.length)]
      else []
    let branches := underBs ++ pairBs ++ overBs
    Node.searchedCase (branches.map Prod.fst)
      (branches.map (fun br => Node.lit (br.2 : Int) .int)) (nameOf arg)
  | n => n

/-- The `@rewrites(ops.CategoryLabel)` rule `_category_label`: a simple
CASE on the code expression with one branch per label, the optional
`nulls` fallback as else-branch, named after the `CategoryLabel` node
itself when it has a name (CASE builder modelled from the spec as for
`bucketRw`). -/
def categoryLabelRw : Node → Node
  | .categoryLabel arg labels nulls nm =>
    Node.simpleCase arg
      ((List.range labels.length).map (fun i => Node.lit (i : Int) .int))
      (labels.map Node.litS)
      (nulls.map Node.litS)
      nm
  | n => n

/-- `@rewrites(ops.Any)`. -/
def anyRw : Node → Node
  | .anyN a => .maxN a
  | n => n

/-- `@rewrites(ops.NotAny)`. -/
def notAnyRw : Node → Node
  | .notAnyN a => .equals (.maxN a) (.lit 0 (outDtype a))
  | n => n

/-- `@rewrites(ops.All)`. -/
def allRw : Node → Node
  | .allN a => .minN a
  | n => n

/-- `@rewrites(ops.NotAll)`. -/
def notAllRw : Node → Node
  | .notAllN a => .equals (.minN a) (.lit 0 (outDtype a))
  | n => n

/-- `@rewrites(ops.Cast)` `_rewrite_cast`: integer-to-interval casts become
the dedicated interval construction (`to_interval`, modelled from the spec
as `intervalFromInteger` parameterized by the target unit). -/
def castRw : Node → Node
  | .cast a tgt =>
    match tgt with
    | .interval u => if outDtype a = .int then .intervalFromInteger a u else .cast a tgt
    | _ => .cast a tgt
  | n => n

/-- `@rewrites(ops.StringContains)` `_rewrite_string_contains`. -/
def stringContainsRw : Node → Node
  | .stringContains hay needle => .greaterEqual (.stringFind hay needle) (.lit 0 .int)
  | n => n

/-- The `ExprTranslator._rewrites` table as populated by the decorators of
the module. -/
def rewriteAt : OpTag → Option (Node → Node)
  | .bucketT => some bucketRw
  | .categoryLabelT => some categoryLabelRw
  | .anyT => some anyRw
  | .notAnyT => some notAnyRw
  | .allT => some allRw
  | .notAllT => some notAllRw
  | .castT => some castRw
  | .stringContainsT => some stringContainsRw
  | _ => none

/-- The rewrite step of `ExprTranslator.translate`: applied once, keyed on
the node's discriminant. -/
def applyRewrite (op : Node) : Node :=
  match rewriteAt (discr op) with
  | some rw => rw op
  | none => op

/-- Failures of `translate`: the `KeyError` escaping
`self.context.params[op]` (carrying the parameter node) and
`com.OperationNotDefinedError` (carrying the discriminant).
`fuelExhausted` is an embedding artifact of the structural recursion
bound, reachable on no claim-relevant input. -/
inductive TErr where
  | paramNotBound (op : Node)
  | opNotDefined (t : OpTag)
  | fuelExhausted

/-- `ExprTranslator.translate`, fuelled.  The dialect registry
(`operation_registry`, an external collaborator) is an abstract mapping
from discriminant to formatter; the parameter mapping
(`QueryContext.params`) an abstract partial map on nodes.  Order as in
the source: rewrite once, then scalar parameters, then whole relations
(`'*'`), then the registry, else `OperationNotDefinedError`. -/
def translateF (registry : OpTag → Option (Node → String)) (params : Node → Option Int) :
    Nat → Node → Except TErr String
  | 0, _ => .error .fuelExhausted
  | f+1, op0 =>
    match applyRewrite op0 with
    | .scalarParam id dt =>
      match params (.scalarParam id dt) with
      | none => .error (.paramNotBound (.scalarParam id dt))
      | some raw =>
        let litNode :=
          match dt with
          | .struct => Node.structLit raw dt
          | .map => Node.mapLit raw dt
          | _ => Node.lit raw dt
        translateF registry params f litNode
    | .tableNode _ => .ok "*"
    | op =>
      match registry (discr op) with
      | some fmt => .ok (fmt op)
      | none => .error (.opNotDefined (discr op))

/-! ### Evaluation of the produced CASE expressions (semantic apparatus,
modelled from the spec: a searched CASE "produc[es] an integer bucket
index, or null if no branch matches") -/

/-- Evaluate an integer-valued leaf under an assignment of column values. -/
def evalI (env : Nat → Int) : Node → Option Int
  | .lit v _ => some v
  | .column i _ _ => some (env i)
  | _ => none

/-- Evaluate a comparison/conjunction tree under a column assignment. -/
def evalB (env : Nat → Int) : Node → Option Bool
  | .less a b =>
    match evalI env a, evalI env b with
    | some x, some y => some (decide (x < y))
    | _, _ => none
  | .lessEqual a b =>
    match evalI env a, evalI env b with
    | some x, some y => some (decide (x ≤ y))
    | _, _ => none
  | .andN a b =>
    match evalB env a, evalB env b with
    | some x, some y => some (x && y)
    | _, _ => none
  | _ => none

/-- First branch whose condition evaluates to true wins. -/
def firstCase (env : Nat → Int) : List (Node × Node) → Option Int
  | [] => none
  | (c, r) :: t =>
    match evalB env c with
    | some true => evalI env r
    | _ => firstCase env t

/-- Evaluate a searched CASE at a column assignment; `none` is SQL null
(no branch matched, no else-branch). -/
def evalSC (env : Nat → Int) : Node → Option Int
  | .searchedCase conds results _ => firstCase env (conds.zip results)
  | _ => none

/-- The condition of the first emitted branch of a searched CASE. -/
def underCondOf : Node → Option Node
  | .searchedCase conds _ _ => conds.head?
  | _ => none

/-! ### Invariants and concrete instances used by the theorems -/

/-- Every alias visible from `x` is some `t{j}` with `j` below the number
of visible entries, and the visible aliases are pairwise distinct — for
every live context `x`. -/
def AliasInv (s : St) : Prop :=
  ∀ x, x < s.numCtxs →
    (∀ a ∈ chainAliases s x, ∃ j, j < chainCount s x ∧ a = mkAliasStr j) ∧
    (chainAliases s x).Nodup

/-- A plain node key. -/
def nA : CNode := ⟨1, none⟩

/-- A second plain node key. -/
def nB : CNode := ⟨2, none⟩

/-- A pass-through node (`ops.SQLQueryResult` / `ops.SQLStringView`) whose
stored query text is `"Q"`. -/
def nQ : CNode := ⟨7, some "Q"⟩

/-- A concrete stand-in for the external `compiler.to_sql`. -/
def cf : CNode → String := fun _ => "SQL"

/-- A context state in which the root context's extracted set holds `nA`
but no alias was ever recorded for it — the internal-inconsistency state
the specification's `get_ref` error clause speaks about. -/
def sBad : St := ⟨1, fun _ => ⟨none, [], [nA], []⟩⟩

/-- An empty operation registry. -/
def noReg : OpTag → Option (Node → String) := fun _ => none

/-- An empty parameter mapping. -/
def noParams : Node → Option Int := fun _ => none

/-- The column expression used as the bucketed value in the concrete
bucket cases. -/
def argX : Node := .column 0 .int none

/-- A named column, for the name-preservation witnesses. -/
def argNamed : Node := .column 0 .int (some "v")

/-! ### Properties of the alias rendering -/

theorem charVal_digitChar {d : Nat} (h : d < 10) : charVal (digitChar d) = d := by
  interval_cases d <;> rfl

theorem parseLE_decDigitsF : ∀ f n, n ≤ f → parseLE (decDigitsF (f+1) n) = n := by
  intro f
  induction f with
  | zero =>
    intro n hn
    interval_cases n
    rfl
  | succ f ih =>
    intro n hn
    by_cases h10 : n < 10
    · simp [decDigitsF, h10, parseLE, charVal_digitChar h10]
    · have hlt : n / 10 < n := Nat.div_lt_self (by omega) (by omega)
      have hdiv : n / 10 ≤ f := by omega
      have hmod : n % 10 < 10 := Nat.mod_lt n (by omega)
      have hstep : decDigitsF (f+1+1) n = digitChar (n % 10) :: decDigitsF (f+1) (n / 10) := by
        simp [decDigitsF, h10]
      rw [hstep]
      simp only [parseLE, ih (n / 10) hdiv, charVal_digitChar hmod]
      omega

theorem natDecimal_inj {a b : Nat} (h : natDecimal a = natDecimal b) : a = b := by
  have hd : (decDigitsF (a+1) a).reverse = (decDigitsF (b+1) b).reverse := by
    have := congrArg String.data h
    simpa [natDecimal] using this
  have hl : decDigitsF (a+1) a = decDigitsF (b+1) b := List.reverse_injective hd
  have ha := parseLE_decDigitsF a a le_rfl
  rw [hl, parseLE_decDigitsF b b le_rfl] at ha
  omega

theorem mkAliasStr_inj {a b : Nat} (h : mkAliasStr a = mkAliasStr b) : a = b := by
  apply natDecimal_inj
  have hd := congrArg String.data h
  simp only [mkAliasStr, String.data_append] at hd
  have := List.append_cancel_left hd
  exact congrArg String.mk (by simpa [natDecimal] using this)

/-! ### Association-list facts -/

theorem lookupKV_setKV_self (l : List (CNode × String)) (n : CNode) (a : String) :
    lookupKV (setKV l n a) n = some a := by
  induction l with
  | nil => simp [setKV, lookupKV]
  | cons hd t ih =>
    obtain ⟨k, v⟩ := hd
    by_cases hk : k = n <;> simp [setKV, lookupKV, hk, ih]

theorem lookupKV_setKV_ne (l : List (CNode × String)) {m n : CNode} (a : String)
    (hne : m ≠ n) : lookupKV (setKV l n a) m = lookupKV l m := by
  induction l with
  | nil =>
    show (if n = m then some a else none) = none
    rw [if_neg (fun h => hne h.symm)]
  | cons hd t ih =>
    obtain ⟨k, v⟩ := hd
    by_cases hk : k = n
    · subst hk
      simp only [setKV, if_pos rfl, lookupKV]
      rw [if_neg (fun h => hne h.symm), if_neg (fun h => hne h.symm)]
    · simp only [setKV, if_neg hk, lookupKV, ih]

theorem setKV_of_none {l : List (CNode × String)} {n : CNode} (a : String)
    (h : lookupKV l n = none) : setKV l n a = l ++ [(n, a)] := by
  induction l with
  | nil => rfl
  | cons hd t ih =>
    obtain ⟨k, v⟩ := hd
    by_cases hk : k = n
    · simp [lookupKV, hk] at h
    · simp only [lookupKV, if_neg hk] at h
      simp [setKV, hk, ih h]

/-! ### Parent-chain facts -/

theorem valid_parent_zero {s : St} (hv : Valid s) : parentOf s 0 = none := by
  cases h : parentOf s 0 with
  | none => rfl
  | some p => exact absurd (hv.1 0 p h) (by omega)

theorem chain_single {s : St} {c : Nat} (h : parentOf s c = none) : chain s c = [c] := by
  cases c with
  | zero => rfl
  | succ c' => simp [chain, chainF, h]

theorem chain_eq_cons_tail (s : St) (c : Nat) : chain s c = c :: (chain s c).tail := by
  cases c <;> rfl

theorem mem_chain_self (s : St) (c : Nat) : c ∈ chain s c := by
  rw [chain_eq_cons_tail]
  exact List.mem_cons_self _ _

theorem chainF_congr_fuel {s : St} (hv : Valid s) :
    ∀ c f₁ f₂, c ≤ f₁ → c ≤ f₂ → chainF f₁ s c = chainF f₂ s c := by
  intro c
  induction c using Nat.strong_induction_on with
  | _ c ih =>
    intro f₁ f₂ h₁ h₂
    cases c with
    | zero => cases f₁ <;> cases f₂ <;> simp [chainF, valid_parent_zero hv]
    | succ c' =>
      obtain ⟨g₁, rfl⟩ : ∃ g, f₁ = g + 1 := ⟨f₁ - 1, by omega⟩
      obtain ⟨g₂, rfl⟩ : ∃ g, f₂ = g + 1 := ⟨f₂ - 1, by omega⟩
      simp only [chainF]
      cases hp : parentOf s (c'+1) with
      | none => rfl
      | some p =>
        have hpc := hv.1 _ _ hp
        exact congrArg _ (ih p (by omega) g₁ g₂ (by omega) (by omega))

theorem chain_cons {s : St} {c p : Nat} (hv : Valid s) (hp : parentOf s c = some p) :
    chain s c = c :: chain s p := by
  have hpc := hv.1 _ _ hp
  cases c with
  | zero => omega
  | succ c' =>
    show chainF (c'+1) s (c'+1) = _
    simp only [chainF, hp]
    exact congrArg _ (chainF_congr_fuel hv p c' p (by omega) le_rfl)

theorem chain_mem_le {s : St} (hv : Valid s) :
    ∀ c d, d ∈ chain s c → d ≤ c := by
  intro c
  induction c using Nat.strong_induction_on with
  | _ c ih =>
    intro d hd
    cases hp : parentOf s c with
    | none =>
      rw [chain_single hp] at hd
      simp at hd
      omega
    | some p =>
      rw [chain_cons hv hp] at hd
      rcases List.mem_cons.mp hd with rfl | hd'
      · exact le_rfl
      · have hpc := hv.1 _ _ hp
        have := ih p hpc d hd'
        omega

theorem chain_tail_lt {s : St} {c : Nat} (hv : Valid s) :
    ∀ d ∈ (chain s c).tail, d < c := by
  intro d hd
  cases hp : parentOf s c with
  | none => rw [chain_single hp] at hd; simp at hd
  | some p =>
    rw [chain_cons hv hp] at hd
    have hpc := hv.1 _ _ hp
    have := chain_mem_le hv p d hd
    omega

theorem chain_nodup {s : St} (hv : Valid s) : ∀ c, (chain s c).Nodup := by
  intro c
  induction c using Nat.strong_induction_on with
  | _ c ih =>
    cases hp : parentOf s c with
    | none => rw [chain_single hp]; simp
    | some p =>
      rw [chain_cons hv hp]
      have hpc := hv.1 _ _ hp
      refine List.nodup_cons.mpr ⟨fun hmem => ?_, ih p hpc⟩
      have := chain_mem_le hv p c hmem
      omega

theorem chain_suffix {s : St} (hv : Valid s) :
    ∀ c d, d ∈ chain s c → chain s d <:+ chain s c := by
  intro c
  induction c using Nat.strong_induction_on with
  | _ c ih =>
    intro d hd
    cases hp : parentOf s c with
    | none =>
      have hd' : d = c := by
        rw [chain_single hp] at hd
        simpa using hd
      subst hd'
      exact List.suffix_refl _
    | some p =>
      rw [chain_cons hv hp] at hd ⊢
      rcases List.mem_cons.mp hd with rfl | hd'
      · rw [← chain_cons hv hp]
      · have hpc := hv.1 _ _ hp
        exact (ih p hpc d hd').trans (List.suffix_cons _ _)

/-! ### How the state-updating operations act on the projections -/

theorem parentOf_updCtx {s : St} {c : Nat} {f : Ctx → Ctx}
    (hf : ∀ ctx, (f ctx).parent = ctx.parent) (i : Nat) :
    parentOf (updCtx s c f) i = parentOf s i := by
  simp only [parentOf, updCtx]
  split <;> simp [hf]

theorem parentOf_setRef (s : St) (c : Nat) (n : CNode) (a : String) (i : Nat) :
    parentOf (setRef s c n a) i = parentOf s i := by
  simp only [setRef]
  apply parentOf_updCtx
  intro ctx
  rfl

theorem parentOf_setMemo (s : St) (c : Nat) (n : CNode) (r : String) (i : Nat) :
    parentOf (setMemo s c n r) i = parentOf s i := by
  simp only [setMemo]
  apply parentOf_updCtx
  intro ctx
  rfl

theorem parentOf_subcontext {s : St} {p i : Nat} (hi : i < s.numCtxs) :
    parentOf (subcontext s p) i = parentOf s i := by
  simp only [parentOf, subcontext]
  rw [if_neg (by omega)]

theorem tblOf_updCtx (s : St) (c : Nat) (f : Ctx → Ctx) (i : Nat) :
    tblOf (updCtx s c f) i = if i = c then (f (s.ctxs i)).tbl else tblOf s i := by
  simp only [tblOf, updCtx]
  split <;> rfl

theorem tblOf_setRef_self (s : St) (c : Nat) (n : CNode) (a : String) :
    tblOf (setRef s c n a) c = setKV (tblOf s c) n a := by
  simp [setRef, updCtx, tblOf]

theorem tblOf_setRef_ne (s : St) {c i : Nat} (n : CNode) (a : String) (h : i ≠ c) :
    tblOf (setRef s c n a) i = tblOf s i := by
  simp [setRef, tblOf_updCtx, h]

theorem tblOf_setMemo (s : St) (c : Nat) (n : CNode) (r : String) (i : Nat) :
    tblOf (setMemo s c n r) i = tblOf s i := by
  simp only [setMemo, tblOf_updCtx]
  split <;> rfl

theorem tblOf_subcontext {s : St} {p i : Nat} (hi : i < s.numCtxs) :
    tblOf (subcontext s p) i = tblOf s i := by
  simp only [tblOf, subcontext]
  rw [if_neg (by omega)]

theorem tblOf_subcontext_new (s : St) (p : Nat) :
    tblOf (subcontext s p) s.numCtxs = [] := by
  simp [tblOf, subcontext, emptyCtx]

theorem memoOf_setRef (s : St) (c : Nat) (n : CNode) (a : String) (i : Nat) :
    memoOf (setRef s c n a) i = memoOf s i := by
  simp only [setRef, memoOf, updCtx]
  split <;> rfl

theorem memoOf_setMemo_self (s : St) (c : Nat) (n : CNode) (r : String) :
    memoOf (setMemo s c n r) c = setKV (memoOf s c) n r := by
  simp [setMemo, memoOf, updCtx]

theorem memoOf_setMemo_ne (s : St) {c i : Nat} (n : CNode) (r : String) (h : i ≠ c) :
    memoOf (setMemo s c n r) i = memoOf s i := by
  simp [setMemo, memoOf, updCtx, h]

theorem memoOf_subcontext {s : St} {p i : Nat} (hi : i < s.numCtxs) :
    memoOf (subcontext s p) i = memoOf s i := by
  simp only [memoOf, subcontext]
  rw [if_neg (by omega)]

theorem extractedOf_setRef (s : St) (c : Nat) (n : CNode) (a : String) (i : Nat) :
    extractedOf (setRef s c n a) i = extractedOf s i := by
  simp only [setRef, extractedOf, updCtx]
  split <;> rfl

theorem numCtxs_updCtx (s : St) (c : Nat) (f : Ctx → Ctx) :
    (updCtx s c f).numCtxs = s.numCtxs := rfl

theorem numCtxs_setRef (s : St) (c : Nat) (n : CNode) (a : String) :
    (setRef s c n a).numCtxs = s.numCtxs := rfl

theorem numCtxs_makeAlias (s : St) (c : Nat) (n : CNode) :
    (makeAlias s c n).numCtxs = s.numCtxs := by
  unfold makeAlias
  split <;> rfl

/-! ### Chain congruence under state updates -/

theorem chainF_congr {s s' : St} (hv : Valid s) :
    ∀ f c, (∀ i, i ≤ c → parentOf s' i = parentOf s i) → chainF f s' c = chainF f s c := by
  intro f
  induction f with
  | zero => intro c _; rfl
  | succ f ih =>
    intro c hpar
    simp only [chainF, hpar c le_rfl]
    cases hp : parentOf s c with
    | none => rfl
    | some p =>
      have hpc := hv.1 _ _ hp
      exact congrArg _ (ih p (fun i hi => hpar i (by omega)))

theorem chain_congr {s s' : St} {c : Nat} (hv : Valid s)
    (hpar : ∀ i, i ≤ c → parentOf s' i = parentOf s i) : chain s' c = chain s c :=
  chainF_congr hv c c hpar

theorem chain_setRef {s : St} (hv : Valid s) (c' : Nat) (n : CNode) (a : String) (c : Nat) :
    chain (setRef s c' n a) c = chain s c :=
  chain_congr hv (fun i _ => parentOf_setRef s c' n a i)

theorem chain_setMemo {s : St} (hv : Valid s) (c' : Nat) (n : CNode) (r : String) (c : Nat) :
    chain (setMemo s c' n r) c = chain s c :=
  chain_congr hv (fun i _ => parentOf_setMemo s c' n r i)

theorem chain_makeAlias {s : St} (hv : Valid s) (c' : Nat) (n : CNode) (c : Nat) :
    chain (makeAlias s c' n) c = chain s c := by
  unfold makeAlias
  split <;> exact chain_setRef hv c' n _ c

theorem chain_subcontext {s : St} {c : Nat} (hv : Valid s) (hc : c < s.numCtxs) (p : Nat) :
    chain (subcontext s p) c = chain s c := by
  refine chain_congr hv (fun i hi => parentOf_subcontext (by omega))

/-! ### Validity preservation -/

theorem valid_s0 : Valid s0 := by
  refine ⟨fun i p h => ?_, fun i _ => rfl, le_rfl, fun i h1 h2 => by
    simp only [s0] at h2
    omega⟩
  exact absurd h (by simp [parentOf, s0, emptyCtx])

theorem valid_updCtx {s : St} {c : Nat} {f : Ctx → Ctx} (hv : Valid s)
    (hc : c < s.numCtxs) (hf : ∀ ctx, (f ctx).parent = ctx.parent) :
    Valid (updCtx s c f) := by
  obtain ⟨h1, h2, h3, h4⟩ := hv
  refine ⟨?_, ?_, h3, ?_⟩
  · intro i p hp
    rw [parentOf_updCtx hf] at hp
    exact h1 i p hp
  · intro i hi
    simp only [numCtxs_updCtx] at hi
    simp only [updCtx]
    rw [if_neg (by omega)]
    exact h2 i hi
  · intro i hi1 hi2
    rw [parentOf_updCtx hf]
    exact h4 i hi1 hi2

theorem valid_setRef {s : St} {c : Nat} (hv : Valid s) (hc : c < s.numCtxs)
    (n : CNode) (a : String) : Valid (setRef s c n a) :=
  valid_updCtx hv hc (fun _ => rfl)

theorem valid_setMemo {s : St} {c : Nat} (hv : Valid s) (hc : c < s.numCtxs)
    (n : CNode) (r : String) : Valid (setMemo s c n r) :=
  valid_updCtx hv hc (fun _ => rfl)

theorem valid_makeAlias {s : St} {c : Nat} (hv : Valid s) (hc : c < s.numCtxs)
    (n : CNode) : Valid (makeAlias s c n) := by
  unfold makeAlias
  split <;> exact valid_setRef hv hc n _

theorem valid_subcontext {s : St} {p : Nat} (hv : Valid s) (hp : p < s.numCtxs) :
    Valid (subcontext s p) := by
  obtain ⟨h1, h2, h3, h4⟩ := hv
  refine ⟨?_, ?_, by show 1 ≤ s.numCtxs + 1; omega, ?_⟩
  · intro i q hq
    by_cases hi : i = s.numCtxs
    · subst hi
      simp only [parentOf, subcontext, if_pos rfl] at hq
      have hqp : p = q := by
        simpa [emptyCtx] using hq
      omega
    · rw [show parentOf (subcontext s p) i = parentOf s i from by
        simp only [parentOf, subcontext]; rw [if_neg hi]] at hq
      exact h1 i q hq
  · intro i hi
    simp only [subcontext] at hi ⊢
    rw [if_neg (by omega)]
    exact h2 i (by omega)
  · intro i hi1 hi2
    by_cases hi : i = s.numCtxs
    · subst hi
      simp [parentOf, subcontext]
    · simp only [subcontext] at hi2
      rw [show parentOf (subcontext s p) i = parentOf s i from by
        simp only [parentOf, subcontext]; rw [if_neg hi]]
      exact h4 i hi1 (by omega)

theorem valid_setExtracted {s : St} {c : Nat} (hv : Valid s) (hc : c < s.numCtxs)
    (n : CNode) : Valid (setExtracted s c n) := by
  unfold setExtracted
  refine valid_makeAlias ?_ ?_ n
  · apply valid_updCtx hv hc
    intro ctx
    rfl
  · exact hc

/-! ### The top context -/

theorem getLastD_cons_mem : ∀ (l : List Nat) (a d : Nat), (a :: l).getLastD d ∈ a :: l := by
  intro l
  induction l with
  | nil => intro a d; simp
  | cons b t ih =>
    intro a d
    rw [List.getLastD_cons]
    exact List.mem_cons_of_mem a (ih b a)

theorem topOf_mem_chain (s : St) (c : Nat) : topOf s c ∈ chain s c := by
  rw [topOf, chain_eq_cons_tail s c]
  exact getLastD_cons_mem _ c c

theorem topOf_le {s : St} (hv : Valid s) (c : Nat) : topOf s c ≤ c :=
  chain_mem_le hv c _ (topOf_mem_chain s c)

theorem topOf_congr {s s' : St} {c : Nat} (h : chain s' c = chain s c) :
    topOf s' c = topOf s c := by
  simp [topOf, h]

theorem topOf_parent {s : St} {c p : Nat} (hv : Valid s) (hp : parentOf s c = some p) :
    topOf s c = topOf s p := by
  rw [topOf, topOf, chain_cons hv hp, List.getLastD_cons, chain_eq_cons_tail s p,
    List.getLastD_cons, List.getLastD_cons]

theorem topOf_zero {s : St} (hv : Valid s) : ∀ c, c < s.numCtxs → topOf s c = 0 := by
  intro c
  induction c using Nat.strong_induction_on with
  | _ c ih =>
    intro hc
    cases hp : parentOf s c with
    | none =>
      have hc0 : c = 0 := by
        by_contra hne
        have := hv.2.2.2 c (by omega) hc
        rw [hp] at this
        simp at this
      subst hc0
      rw [topOf, chain_single hp]
      rfl
    | some p =>
      have hpc := hv.1 _ _ hp
      rw [topOf_parent hv hp]
      exact ih p hpc (by omega)

/-! ### Visible-table decompositions -/

theorem chainTbl_single {s : St} {c : Nat} (hp : parentOf s c = none) :
    chainTbl s c = tblOf s c := by
  simp [chainTbl, chain_single hp]

theorem chainTbl_cons {s : St} {c p : Nat} (hv : Valid s) (hp : parentOf s c = some p) :
    chainTbl s c = tblOf s c ++ chainTbl s p := by
  simp [chainTbl, chain_cons hv hp]

theorem chainTbl_congr {s s' : St} {x : Nat} (hchain : chain s' x = chain s x)
    (htbl : ∀ i ∈ chain s x, tblOf s' i = tblOf s i) : chainTbl s' x = chainTbl s x := by
  simp only [chainTbl, hchain]
  exact congrArg List.flatten (List.map_congr_left htbl)

/-- Under the ancestor-first side condition, every context strictly below
`c` on the chain of a descendant `x` has an empty table, so the entries
visible from `x` are exactly those visible from `c`. -/
theorem chainTbl_eq_of_ancOK {s : St} {c : Nat} (hv : Valid s) (hanc : AncOK s c) :
    ∀ x, x < s.numCtxs → c ∈ chain s x → chainTbl s x = chainTbl s c := by
  intro x
  induction x using Nat.strong_induction_on with
  | _ x ih =>
    intro hx hmem
    cases hp : parentOf s x with
    | none =>
      have hxc : c = x := by
        rw [chain_single hp] at hmem
        simpa using hmem
      rw [hxc]
    | some p =>
      rw [chain_cons hv hp] at hmem
      rcases List.mem_cons.mp hmem with rfl | hmem'
      · rfl
      · have hpx := hv.1 _ _ hp
        have htx : tblOf s x = [] := by
          refine hanc x hx ?_
          rw [chain_cons hv hp]
          exact hmem'
        rw [chainTbl_cons hv hp, htx, List.nil_append]
        exact ih p hpx (by omega) hmem'

/-! ### Freshness of nodes -/

theorem nodeFresh_lookupChain_none {s : St} {c : Nat} {n : CNode} (hv : Valid s)
    (hc : c < s.numCtxs) (hfr : NodeFresh s n) :
    lookupChainTbl s ((chain s c).tail) n = none := by
  rw [lookupChainTbl, List.findSome?_eq_none_iff]
  intro i hi
  have hic : i < c := chain_tail_lt hv i hi
  exact hfr i (by omega)

theorem makeAlias_eq_fresh {s : St} {c : Nat} {n : CNode} (hv : Valid s)
    (hc : c < s.numCtxs) (hfr : NodeFresh s n) :
    makeAlias s c n = setRef s c n (mkAliasStr (chainCount s c)) := by
  rw [makeAlias, nodeFresh_lookupChain_none hv hc hfr]

theorem makeAlias_is_setRef (s : St) (c : Nat) (n : CNode) :
    ∃ a, makeAlias s c n = setRef s c n a := by
  rw [makeAlias]
  cases lookupChainTbl s ((chain s c).tail) n with
  | none => exact ⟨_, rfl⟩
  | some a => exact ⟨a, rfl⟩

theorem nodeFresh_setRef {s : St} {c : Nat} {m n : CNode} {a : String}
    (hfr : NodeFresh s m) (hmn : m ≠ n) : NodeFresh (setRef s c n a) m := by
  intro i hi
  rw [numCtxs_setRef] at hi
  by_cases hic : i = c
  · subst hic
    rw [tblOf_setRef_self, lookupKV_setKV_ne _ _ hmn]
    exact hfr i hi
  · rw [tblOf_setRef_ne _ _ _ hic]
    exact hfr i hi

theorem nodeFresh_makeAlias {s : St} {c : Nat} {m n : CNode}
    (hfr : NodeFresh s m) (hmn : m ≠ n) : NodeFresh (makeAlias s c n) m := by
  obtain ⟨a, ha⟩ := makeAlias_is_setRef s c n
  rw [ha]
  exact nodeFresh_setRef hfr hmn

theorem nodeFresh_subcontext {s : St} {p : Nat} {m : CNode}
    (hfr : NodeFresh s m) : NodeFresh (subcontext s p) m := by
  intro i hi
  by_cases hin : i = s.numCtxs
  · subst hin
    rw [tblOf_subcontext_new]
    rfl
  · have hi' : i < s.numCtxs := by
      have : (subcontext s p).numCtxs = s.numCtxs + 1 := rfl
      omega
    rw [tblOf_subcontext hi']
    exact hfr i hi'

/-! ### The alias invariant is preserved by the tree-building calls -/

theorem aliasInv_s0 : AliasInv s0 := by
  intro x hx
  have hx0 : x = 0 := by
    simp only [s0] at hx
    omega
  subst hx0
  constructor
  · intro a ha
    simp [chainAliases, chainTbl, chain, chainF, s0, tblOf, emptyCtx, parentOf] at ha
  · simp [chainAliases, chainTbl, chain, chainF, s0, tblOf, emptyCtx, parentOf]

theorem aliasInv_subcontext {s : St} {p : Nat} (hv : Valid s) (hp : p < s.numCtxs)
    (hinv : AliasInv s) : AliasInv (subcontext s p) := by
  intro x hx
  have hnum : (subcontext s p).numCtxs = s.numCtxs + 1 := rfl
  by_cases hxo : x < s.numCtxs
  · have hchain : chain (subcontext s p) x = chain s x := chain_subcontext hv hxo p
    have htb : chainTbl (subcontext s p) x = chainTbl s x := by
      refine chainTbl_congr hchain (fun i hi => ?_)
      have : i ≤ x := chain_mem_le hv x i hi
      exact tblOf_subcontext (by omega)
    simpa [chainAliases, chainCount, htb] using hinv x hxo
  · have hxn : x = s.numCtxs := by omega
    subst hxn
    have hpnew : parentOf (subcontext s p) s.numCtxs = some p := by
      simp [parentOf, subcontext, emptyCtx]
    have hvs := valid_subcontext hv hp
    have hchainp : chain (subcontext s p) p = chain s p := chain_subcontext hv hp p
    have htbp : chainTbl (subcontext s p) p = chainTbl s p := by
      refine chainTbl_congr hchainp (fun i hi => ?_)
      have hip : i ≤ p := chain_mem_le hv p i hi
      exact tblOf_subcontext (by omega)
    have htb : chainTbl (subcontext s p) s.numCtxs = chainTbl s p := by
      rw [chainTbl_cons hvs hpnew, tblOf_subcontext_new, List.nil_append, htbp]
    simpa [chainAliases, chainCount, htb] using hinv p hp

theorem chainAliases_length (s : St) (x : Nat) :
    (chainAliases s x).length = chainCount s x := by
  rw [chainAliases, List.length_map, chainCount]

/-- One ancestor-first `make_alias` call on a fresh node preserves the
alias invariant: the fresh alias `t{chainCount}` is distinct from every
alias visible from any context that can see the calling context, because
those contexts see exactly the calling context's visible entries, whose
indices are all smaller. -/
theorem aliasInv_makeAlias {s : St} {c : Nat} {n : CNode} (hv : Valid s)
    (hinv : AliasInv s) (hc : c < s.numCtxs) (hfr : NodeFresh s n) (hanc : AncOK s c) :
    AliasInv (makeAlias s c n) := by
  have hA := makeAlias_eq_fresh hv hc hfr
  set A := mkAliasStr (chainCount s c) with hAdef
  rw [hA]
  have hv' : Valid (setRef s c n A) := valid_setRef hv hc n A
  have hchain : ∀ x, chain (setRef s c n A) x = chain s x := chain_setRef hv c n A
  have htblne : ∀ i, i ≠ c → tblOf (setRef s c n A) i = tblOf s i :=
    fun i hi => tblOf_setRef_ne s n A hi
  have htblc : tblOf (setRef s c n A) c = tblOf s c ++ [(n, A)] := by
    rw [tblOf_setRef_self, setKV_of_none A (hfr c hc)]
  intro x hx
  rw [numCtxs_setRef] at hx
  by_cases hcx : c ∈ chain s x
  · have hcnum : c < s.numCtxs := by
      have := chain_mem_le hv x c hcx
      omega
    have hanc' : AncOK (setRef s c n A) c := by
      intro d hd hmem
      rw [numCtxs_setRef] at hd
      rw [hchain d] at hmem
      have hdc : c < d := chain_tail_lt hv c hmem
      rw [htblne d (by omega)]
      exact hanc d hd hmem
    have h1 : chainTbl s x = chainTbl s c := chainTbl_eq_of_ancOK hv hanc x hx hcx
    have h2 : chainTbl (setRef s c n A) x = chainTbl (setRef s c n A) c := by
      refine chainTbl_eq_of_ancOK hv' hanc' x ?_ ?_
      · rw [numCtxs_setRef]
        exact hx
      · rw [hchain x]
        exact hcx
    have hsplit : ∃ L₁ L₂, chainAliases s c = L₁ ++ L₂ ∧
        chainAliases (setRef s c n A) c = L₁ ++ A :: L₂ := by
      cases hp : parentOf s c with
      | none =>
        refine ⟨(tblOf s c).map Prod.snd, [], ?_, ?_⟩
        · rw [chainAliases, chainTbl_single hp, List.append_nil]
        · rw [chainAliases, chainTbl_single (show parentOf (setRef s c n A) c = none from by
            rw [parentOf_setRef]; exact hp), htblc]
          simp
      | some p =>
        have hpc := hv.1 _ _ hp
        have hp' : parentOf (setRef s c n A) c = some p := by
          rw [parentOf_setRef]
          exact hp
        have htbp : chainTbl (setRef s c n A) p = chainTbl s p := by
          refine chainTbl_congr (hchain p) (fun i hi => ?_)
          have := chain_mem_le hv p i hi
          exact htblne i (by omega)
        refine ⟨(tblOf s c).map Prod.snd, (chainTbl s p).map Prod.snd, ?_, ?_⟩
        · rw [chainAliases, chainTbl_cons hv hp, List.map_append]
        · rw [chainAliases, chainTbl_cons hv' hp', htblc, htbp, List.map_append,
            List.map_append]
          simp
    obtain ⟨L₁, L₂, hold, hnew⟩ := hsplit
    obtain ⟨hbound, hnd⟩ := hinv c hcnum
    have hAnotin : A ∉ chainAliases s c := by
      intro hmem
      obtain ⟨j, hj, hja⟩ := hbound A hmem
      have : chainCount s c = j := mkAliasStr_inj (hAdef.symm.trans hja)
      omega
    have hax : chainAliases (setRef s c n A) x = L₁ ++ A :: L₂ := by
      rw [chainAliases, h2]
      exact hnew
    have hcount : chainCount (setRef s c n A) x = chainCount s c + 1 := by
      have e1 := chainAliases_length (setRef s c n A) x
      have e2 := chainAliases_length s c
      rw [hax] at e1
      rw [hold] at e2
      simp only [List.length_append, List.length_cons] at e1 e2
      omega
    constructor
    · intro a ha
      rw [hax] at ha
      rw [hcount]
      rcases List.mem_append.mp ha with ha1 | ha2
      · have : a ∈ chainAliases s c := by
          rw [hold]
          exact List.mem_append_left _ ha1
        obtain ⟨j, hj, hja⟩ := hbound a this
        exact ⟨j, by omega, hja⟩
      · rcases List.mem_cons.mp ha2 with rfl | ha3
        · exact ⟨chainCount s c, by omega, hAdef⟩
        · have : a ∈ chainAliases s c := by
            rw [hold]
            exact List.mem_append_right _ ha3
          obtain ⟨j, hj, hja⟩ := hbound a this
          exact ⟨j, by omega, hja⟩
    · rw [hax]
      refine List.nodup_middle.mpr (List.nodup_cons.mpr ⟨?_, ?_⟩)
      · rw [← hold]
        exact hAnotin
      · rw [← hold]
        exact hnd
  · have htb : chainTbl (setRef s c n A) x = chainTbl s x := by
      refine chainTbl_congr (hchain x) (fun i hi => ?_)
      refine htblne i (fun hic => hcx ?_)
      exact hic ▸ hi
    simpa [chainAliases, chainCount, htb] using hinv x hx

/-! ### Running ancestor-first call sequences -/

theorem mkNodes_cons_sub (p : Nat) (es : List Ev) :
    mkNodes (Ev.sub p :: es) = mkNodes es := rfl

theorem mkNodes_cons_mk (c : Nat) (n : CNode) (es : List Ev) :
    mkNodes (Ev.mk c n :: es) = n :: mkNodes es := rfl

theorem aliasInv_run (compile : CNode → String) :
    ∀ (es : List Ev) (s : St), Valid s → AliasInv s →
      (∀ e ∈ es, isCtxEv e = true) → (mkNodes es).Nodup →
      (∀ n ∈ mkNodes es, NodeFresh s n) → AncFirst compile s es →
      Valid (runEv compile s es) ∧ AliasInv (runEv compile s es) := by
  intro es
  induction es with
  | nil => exact fun s hv hinv _ _ _ _ => ⟨hv, hinv⟩
  | cons e es ih =>
    intro s hv hinv hctx hnd hfr hanc
    obtain ⟨hance, hancrest⟩ := hanc
    have hrun : runEv compile s (e :: es) = runEv compile (stepEv compile s e) es := rfl
    rw [hrun]
    cases e with
    | sub p =>
      have hstep : stepEv compile s (Ev.sub p) =
          if p < s.numCtxs then subcontext s p else s := rfl
      rw [hstep] at hancrest ⊢
      by_cases hp : p < s.numCtxs
      · rw [if_pos hp] at hancrest ⊢
        refine ih (subcontext s p) (valid_subcontext hv hp)
          (aliasInv_subcontext hv hp hinv)
          (fun e he => hctx e (List.mem_cons_of_mem _ he))
          (by rw [mkNodes_cons_sub] at hnd; exact hnd)
          (fun n hn => nodeFresh_subcontext (hfr n (by rw [mkNodes_cons_sub]; exact hn)))
          hancrest
      · rw [if_neg hp] at hancrest ⊢
        exact ih s hv hinv (fun e he => hctx e (List.mem_cons_of_mem _ he))
          (by rw [mkNodes_cons_sub] at hnd; exact hnd)
          (fun n hn => hfr n (by rw [mkNodes_cons_sub]; exact hn))
          hancrest
    | mk c n =>
      have hance' : AncOK s c := hance
      have hstep : stepEv compile s (Ev.mk c n) =
          if c < s.numCtxs then makeAlias s c n else s := rfl
      rw [hstep] at hancrest ⊢
      have hndc : (n :: mkNodes es).Nodup := by
        rw [mkNodes_cons_mk] at hnd
        exact hnd
      have hfresh_n : NodeFresh s n := hfr n (by rw [mkNodes_cons_mk]; exact List.mem_cons_self _ _)
      by_cases hc : c < s.numCtxs
      · rw [if_pos hc] at hancrest ⊢
        refine ih (makeAlias s c n) (valid_makeAlias hv hc n)
          (aliasInv_makeAlias hv hinv hc hfresh_n hance')
          (fun e he => hctx e (List.mem_cons_of_mem _ he))
          ((List.nodup_cons.mp hndc).2
          )
          (fun m hm => ?_)
          hancrest
        have hmn : m ≠ n := by
          intro hmn
          exact (List.nodup_cons.mp hndc).1 (hmn ▸ hm)
        exact nodeFresh_makeAlias (hfr m (by rw [mkNodes_cons_mk]; exact List.mem_cons_of_mem _ hm)) hmn
      · rw [if_neg hc] at hancrest ⊢
        exact ih s hv hinv (fun e he => hctx e (List.mem_cons_of_mem _ he))
          (List.nodup_cons.mp hndc).2
          (fun m hm => hfr m (by rw [mkNodes_cons_mk]; exact List.mem_cons_of_mem _ hm))
          hancrest
    | extractE c n =>
      exact absurd (hctx _ (List.mem_cons_self _ _)) (by simp [isCtxEv])
    | compileE c n =>
      exact absurd (hctx _ (List.mem_cons_self _ _)) (by simp [isCtxEv])

/-! ### Memoization machinery for `get_compiled_expr` -/

theorem memoOf_makeAlias (s : St) (c : Nat) (n : CNode) (i : Nat) :
    memoOf (makeAlias s c n) i = memoOf s i := by
  obtain ⟨a, ha⟩ := makeAlias_is_setRef s c n
  rw [ha, memoOf_setRef]

theorem memoOf_setExtracted (s : St) (c : Nat) (n : CNode) (i : Nat) :
    memoOf (setExtracted s c n) i = memoOf s i := by
  unfold setExtracted
  rw [memoOf_makeAlias]
  simp only [memoOf, updCtx]
  split <;> rfl

theorem getCompiledExpr_hit {compile : CNode → String} {s : St} {c : Nat} {n : CNode}
    {r : String} (h : lookupKV (memoOf s (topOf s c)) n = some r) :
    getCompiledExpr compile s c n = (s, r, false) := by
  rw [getCompiledExpr, h]

theorem valid_getCompiledExpr {compile : CNode → String} {s : St} {c : Nat}
    (hv : Valid s) (hc : c < s.numCtxs) (n : CNode) :
    Valid (getCompiledExpr compile s c n).1 := by
  rw [getCompiledExpr]
  cases lookupKV (memoOf s (topOf s c)) n with
  | some r => exact hv
  | none =>
    cases n.passQuery with
    | some q =>
      exact valid_setMemo hv (by have := topOf_le hv c; omega) n q
    | none =>
      refine valid_setMemo (valid_subcontext hv hc) ?_ n (compile n)
      have h1 : topOf (subcontext s c) c = topOf s c :=
        topOf_congr (chain_subcontext hv hc c)
      have h2 := topOf_le hv c
      have h3 : (subcontext s c).numCtxs = s.numCtxs + 1 := rfl
      rw [h1]
      omega

theorem memoHas_getCompiledExpr {compile : CNode → String} {s : St} {c : Nat}
    {n n' : CNode} {r : String} (hv : Valid s) (hc : c < s.numCtxs)
    (h : lookupKV (memoOf s 0) n = some r) :
    lookupKV (memoOf (getCompiledExpr compile s c n').1 0) n = some r := by
  have htopc : topOf s c = 0 := topOf_zero hv c hc
  have h0 : (0 : Nat) < s.numCtxs := hv.2.2.1
  cases hm : lookupKV (memoOf s 0) n' with
  | some q =>
    rw [getCompiledExpr_hit (show lookupKV (memoOf s (topOf s c)) n' = some q from by
      rw [htopc]; exact hm)]
    exact h
  | none =>
    have hne : n ≠ n' := by
      intro heq
      rw [← heq, h] at hm
      exact Option.noConfusion hm
    cases hq : n'.passQuery with
    | some q =>
      simp only [getCompiledExpr, htopc, hm, hq]
      rw [memoOf_setMemo_self, lookupKV_setKV_ne _ _ hne]
      exact h
    | none =>
      simp only [getCompiledExpr, htopc, hm, hq]
      have h1 : topOf (subcontext s c) c = topOf s c :=
        topOf_congr (chain_subcontext hv hc c)
      rw [h1, htopc, memoOf_setMemo_self, lookupKV_setKV_ne _ _ hne, memoOf_subcontext h0]
      exact h

theorem valid_stepEv (compile : CNode → String) {s : St} (hv : Valid s) (e : Ev) :
    Valid (stepEv compile s e) := by
  cases e with
  | sub p =>
    show Valid (if p < s.numCtxs then subcontext s p else s)
    split
    · exact valid_subcontext hv (by assumption)
    · exact hv
  | mk c n =>
    show Valid (if c < s.numCtxs then makeAlias s c n else s)
    split
    · exact valid_makeAlias hv (by assumption) n
    · exact hv
  | extractE c n =>
    show Valid (if c < s.numCtxs then setExtracted s c n else s)
    split
    · exact valid_setExtracted hv (by assumption) n
    · exact hv
  | compileE c n =>
    show Valid (if c < s.numCtxs then (getCompiledExpr compile s c n).1 else s)
    split
    · exact valid_getCompiledExpr hv (by assumption) n
    · exact hv

theorem valid_runEv (compile : CNode → String) :
    ∀ (es : List Ev) (s : St), Valid s → Valid (runEv compile s es) := by
  intro es
  induction es with
  | nil => exact fun s hv => hv
  | cons e es ih => exact fun s hv => ih (stepEv compile s e) (valid_stepEv compile hv e)

theorem memoHas_stepEv (compile : CNode → String) {s : St} {n : CNode} {r : String}
    (hv : Valid s) (h : lookupKV (memoOf s 0) n = some r) (e : Ev) :
    lookupKV (memoOf (stepEv compile s e) 0) n = some r := by
  have h0 : (0 : Nat) < s.numCtxs := hv.2.2.1
  cases e with
  | sub p =>
    show lookupKV (memoOf (if p < s.numCtxs then subcontext s p else s) 0) n = some r
    split
    · rw [memoOf_subcontext h0]
      exact h
    · exact h
  | mk c m =>
    show lookupKV (memoOf (if c < s.numCtxs then makeAlias s c m else s) 0) n = some r
    split
    · rw [memoOf_makeAlias]
      exact h
    · exact h
  | extractE c m =>
    show lookupKV (memoOf (if c < s.numCtxs then setExtracted s c m else s) 0) n = some r
    split
    · rw [memoOf_setExtracted]
      exact h
    · exact h
  | compileE c m =>
    show lookupKV (memoOf (if c < s.numCtxs then (getCompiledExpr compile s c m).1 else s) 0) n
        = some r
    split
    · exact memoHas_getCompiledExpr hv (by assumption) h
    · exact h

theorem memoHas_runEv (compile : CNode → String) :
    ∀ (es : List Ev) (s : St) (n : CNode) (r : String), Valid s →
      lookupKV (memoOf s 0) n = some r →
      lookupKV (memoOf (runEv compile s es) 0) n = some r := by
  intro es
  induction es with
  | nil => exact fun s n r _ h => h
  | cons e es ih =>
    intro s n r hv h
    exact ih (stepEv compile s e) n r (valid_stepEv compile hv e)
      (memoHas_stepEv compile hv h e)

/-! ### Further helpers for the claim theorems -/

theorem chainF_congr_all {s s' : St} (hpar : ∀ i, parentOf s' i = parentOf s i) :
    ∀ f c, chainF f s' c = chainF f s c := by
  intro f
  induction f with
  | zero => intro c; rfl
  | succ f ih =>
    intro c
    simp only [chainF, hpar c]
    cases parentOf s c with
    | none => rfl
    | some p => exact congrArg _ (ih p)

theorem chain_congr_all {s s' : St} (hpar : ∀ i, parentOf s' i = parentOf s i) (c : Nat) :
    chain s' c = chain s c :=
  chainF_congr_all hpar c c

theorem parentOf_setExtracted (s : St) (c : Nat) (n : CNode) (i : Nat) :
    parentOf (setExtracted s c n) i = parentOf s i := by
  unfold setExtracted
  obtain ⟨a, ha⟩ := makeAlias_is_setRef (updCtx s c fun ctx =>
    { ctx with extracted := n :: ctx.extracted }) c n
  rw [ha, parentOf_setRef]
  apply parentOf_updCtx
  intro ctx
  rfl

theorem extractedOf_updCtx_extracted (s : St) (c : Nat) (n : CNode) (i : Nat) :
    extractedOf (updCtx s c fun ctx => { ctx with extracted := n :: ctx.extracted }) i
      = if i = c then n :: extractedOf s i else extractedOf s i := by
  simp only [extractedOf, updCtx]
  split <;> rfl

theorem extractedOf_makeAlias (s : St) (c : Nat) (n : CNode) (i : Nat) :
    extractedOf (makeAlias s c n) i = extractedOf s i := by
  obtain ⟨a, ha⟩ := makeAlias_is_setRef s c n
  rw [ha, extractedOf_setRef]

theorem extractedOf_setExtracted (s : St) (c : Nat) (n : CNode) (i : Nat) :
    extractedOf (setExtracted s c n) i = if i = c then n :: extractedOf s i else extractedOf s i := by
  unfold setExtracted
  rw [extractedOf_makeAlias, extractedOf_updCtx_extracted]

theorem tblOf_setExtracted_self_isSome (s : St) (c : Nat) (n : CNode) :
    (lookupKV (tblOf (setExtracted s c n) c) n).isSome := by
  unfold setExtracted
  obtain ⟨a, ha⟩ := makeAlias_is_setRef (updCtx s c fun ctx =>
    { ctx with extracted := n :: ctx.extracted }) c n
  rw [ha, tblOf_setRef_self, lookupKV_setKV_self]
  rfl

theorem topOf_setExtracted (s : St) (c : Nat) (n : CNode) (i : Nat) :
    topOf (setExtracted s c n) i = topOf s i :=
  topOf_congr (chain_congr_all (parentOf_setExtracted s c n) i)

theorem lookupChainTbl_congr {s s' : St} {ids : List Nat} {n : CNode}
    (h : ∀ i ∈ ids, tblOf s' i = tblOf s i) :
    lookupChainTbl s' ids n = lookupChainTbl s ids n := by
  induction ids with
  | nil => rfl
  | cons i t ih =>
    rw [lookupChainTbl, List.findSome?_cons, lookupChainTbl, List.findSome?_cons,
      h i (List.mem_cons_self _ _)]
    cases lookupKV (tblOf s i) n with
    | some a => rfl
    | none => exact ih (fun j hj => h j (List.mem_cons_of_mem _ hj))

/-- The first branch emitted by `_bucket` when `include_under` is set,
with the comparator choice spelled out. -/
theorem bucketRw_underCond (arg : Node) (buckets : List Int) (closed : Closed)
    (ce io : Bool) :
    underCondOf (bucketRw (.bucket arg buckets closed ce true io)) =
      some ((if (buckets.length : Int) - 1 > 0 then
               (if ce then fun a b => Node.less a b
                else fun a b => if closed = .left then Node.less a b else Node.lessEqual a b)
             else
               (if closed = .right then fun a b => Node.lessEqual a b
                else fun a b => Node.less a b)) arg (.lit (buckets.headD 0) .int)) := rfl

/-- After a text is recorded in the top memo, any later
`get_compiled_expr` call, from any context reachable by any further call
sequence, is a pure cache hit. -/
theorem gce_later {compile : CNode → String} {s' : St} {n : CNode} {r : String}
    (hv' : Valid s') (hhas : lookupKV (memoOf s' 0) n = some r) :
    ∀ (es₂ : List Ev) (c₂ : Nat), c₂ < (runEv compile s' es₂).numCtxs →
      getCompiledExpr compile (runEv compile s' es₂) c₂ n = (runEv compile s' es₂, r, false) := by
  intro es₂ c₂ hc₂
  have hv₂ := valid_runEv compile es₂ s' hv'
  have hh₂ := memoHas_runEv compile es₂ s' n r hv' hhas
  exact getCompiledExpr_hit (by rw [topOf_zero hv₂ c₂ hc₂]; exact hh₂)

/-! ### The claims -/

/-- C1 (corrected): `set_extracted(node)` on context `c` adds the node to
the **calling** context's extracted set — not the top context's — and
immediately assigns it an alias via `make_alias` in the calling context;
since `is_extracted` consults only the top context's set, it becomes true
(from any context `c'`) exactly when the calling context is the top
context of `c'`'s chain (or the node was already extracted). -/
theorem set_extracted_adds_locally_and_aliases (s : St) (c : Nat) (n : CNode) :
    n ∈ extractedOf (setExtracted s c n) c ∧
    (lookupKV (tblOf (setExtracted s c n) c) n).isSome ∧
    (∀ c', isExtracted (setExtracted s c n) c' n ↔ (topOf s c' = c ∨ isExtracted s c' n)) := by
  refine ⟨?_, tblOf_setExtracted_self_isSome s c n, ?_⟩
  · rw [extractedOf_setExtracted, if_pos rfl]
    exact List.mem_cons_self _ _
  · intro c'
    rw [isExtracted, topOf_setExtracted, extractedOf_setExtracted]
    by_cases ht : topOf s c' = c
    · rw [if_pos ht]
      simp [ht, isExtracted]
    · rw [if_neg ht]
      simp [ht, isExtracted]

/-- C1 counterexample: calling `set_extracted` on a child context does not
put the node into the top context's extracted set, so `is_extracted` stays
false — even in the very context that called `set_extracted`. -/
theorem set_extracted_on_subcontext_not_extracted :
    ¬ isExtracted (setExtracted (subcontext s0 0) 1 nA) 1 nA := by decide

/-- C2 (corrected): for an extracted node, `get_ref` resolves from the top
context's alias table regardless of local state; when the top context
records no alias, `get_ref` returns `none` (`dict.get`) — it does not
raise. -/
theorem get_ref_extracted_reads_top (s : St) (c : Nat) (n : CNode)
    (hx : isExtracted s c n) :
    getRef s c n = lookupKV (tblOf s (topOf s c)) n ∧
    (lookupKV (tblOf s (topOf s c)) n = none → getRef s c n = none) := by
  constructor
  · rw [getRef, if_pos hx]
  · intro h
    rw [getRef, if_pos hx, h]

/-- C2 witness: after `set_extracted` on the root, `get_ref` from the root
returns the alias recorded in the top context's table. -/
theorem get_ref_extracted_reads_top_witness :
    isExtracted (setExtracted s0 0 nA) 0 nA ∧
    getRef (setExtracted s0 0 nA) 0 nA
      = lookupKV (tblOf (setExtracted s0 0 nA) (topOf (setExtracted s0 0 nA) 0)) nA :=
  ⟨by decide, (get_ref_extracted_reads_top (setExtracted s0 0 nA) 0 nA (by decide)).1⟩

/-- C2 counterexample: in a state where the node is in the top context's
extracted set but no alias was recorded, `get_ref` evaluates to `none` — a
successfully returned "no alias", not an aborting
`MalformedSubqueryReference` failure (the code path is
`self.top_context.table_refs.get(node)`, which cannot raise). -/
theorem get_ref_extracted_missing_alias_returns_none :
    isExtracted sBad 0 nA ∧ getRef sBad 0 nA = none := by decide

/-- C3 (corrected): under the ancestor-first discipline — no `make_alias`
call in a context once one of its proper descendants has a nonempty alias
table — and with the aliased nodes pairwise distinct, the alias strings
visible from any context (self + ancestors) are pairwise distinct. -/
theorem visible_aliases_distinct_of_ancestor_first (compile : CNode → String)
    (es : List Ev) (hctx : ∀ e ∈ es, isCtxEv e = true) (hnd : (mkNodes es).Nodup)
    (hanc : AncFirst compile s0 es) (c : Nat)
    (hc : c < (runEv compile s0 es).numCtxs) :
    (chainAliases (runEv compile s0 es) c).Nodup :=
  ((aliasInv_run compile es s0 valid_s0 aliasInv_s0 hctx hnd
      (fun _ _ _ _ => rfl) hanc).2 c hc).2

/-- C3 witness: a parent-first run over two contexts and two distinct
nodes; the aliases visible from the child are pairwise distinct. -/
theorem visible_aliases_distinct_of_ancestor_first_witness :
    (∀ e ∈ [Ev.sub 0, Ev.mk 0 nA, Ev.mk 1 nB], isCtxEv e = true) ∧
    (mkNodes [Ev.sub 0, Ev.mk 0 nA, Ev.mk 1 nB]).Nodup ∧
    AncFirst cf s0 [Ev.sub 0, Ev.mk 0 nA, Ev.mk 1 nB] ∧
    (chainAliases (runEv cf s0 [Ev.sub 0, Ev.mk 0 nA, Ev.mk 1 nB]) 1).Nodup :=
  ⟨by decide, by decide, by decide,
   visible_aliases_distinct_of_ancestor_first cf [Ev.sub 0, Ev.mk 0 nA, Ev.mk 1 nB]
     (by decide) (by decide) (by decide) 1 (by decide)⟩

/-- C3 counterexample: aliasing in a child before the parent makes both
contexts assign `t0` to distinct nodes, so the aliases visible from the
child collide — the claim fails without an ordering condition even though
all aliased nodes are distinct. -/
theorem alias_collision_child_before_parent :
    (mkNodes [Ev.sub 0, Ev.mk 1 nA, Ev.mk 0 nB]).Nodup ∧
    ¬ (chainAliases (runEv cf s0 [Ev.sub 0, Ev.mk 1 nA, Ev.mk 0 nB]) 1).Nodup := by decide

/-- C4 (corrected): `make_alias` twice on the same node yields the same
alias both times when the node's prior alias lives in a **proper
ancestor** of the calling context (the ancestor walk finds and reuses
it); the walk skips the calling context itself, so an alias recorded only
locally is not reused (see the counterexample). -/
theorem make_alias_stable_of_ancestor_alias (s : St) (c : Nat) (n : CNode) (a : String)
    (hv : Valid s) (h : lookupChainTbl s ((chain s c).tail) n = some a) :
    lookupKV (tblOf (makeAlias s c n) c) n = some a ∧
    lookupKV (tblOf (makeAlias (makeAlias s c n) c n) c) n = some a := by
  have h1 : makeAlias s c n = setRef s c n a := by
    rw [makeAlias, h]
  have hl1 : lookupKV (tblOf (makeAlias s c n) c) n = some a := by
    rw [h1, tblOf_setRef_self, lookupKV_setKV_self]
  refine ⟨hl1, ?_⟩
  rw [h1]
  have hcong : lookupChainTbl (setRef s c n a) ((chain (setRef s c n a) c).tail) n = some a := by
    rw [chain_setRef hv c n a c]
    rw [lookupChainTbl_congr (fun i hi => tblOf_setRef_ne s n a (show i ≠ c from by
      have := chain_tail_lt hv i hi
      omega))]
    exact h
  rw [makeAlias, hcong, tblOf_setRef_self, lookupKV_setKV_self]

/-- C4 witness: the root aliases the node as `t0`; a child context then
calls `make_alias` twice and keeps `t0` both times. -/
theorem make_alias_stable_of_ancestor_alias_witness :
    lookupChainTbl (subcontext (makeAlias s0 0 nA) 0)
        ((chain (subcontext (makeAlias s0 0 nA) 0) 1).tail) nA = some "t0" ∧
    lookupKV (tblOf (makeAlias (subcontext (makeAlias s0 0 nA) 0) 1 nA) 1) nA = some "t0" ∧
    lookupKV (tblOf (makeAlias (makeAlias (subcontext (makeAlias s0 0 nA) 0) 1 nA) 1 nA) 1) nA
      = some "t0" :=
  ⟨by decide,
   (make_alias_stable_of_ancestor_alias (subcontext (makeAlias s0 0 nA) 0) 1 nA "t0"
     (valid_subcontext (valid_makeAlias valid_s0 (by decide) nA) (by decide)) (by decide)).1,
   (make_alias_stable_of_ancestor_alias (subcontext (makeAlias s0 0 nA) 0) 1 nA "t0"
     (valid_subcontext (valid_makeAlias valid_s0 (by decide) nA) (by decide)) (by decide)).2⟩

/-- C4 counterexample: in a single root context, the second `make_alias`
on the same node re-aliases it from `t0` to `t1` — the ancestor walk skips
the calling context, so the prior local alias is not reused and the
recorded alias changes. -/
theorem make_alias_twice_same_context_changes_alias :
    lookupKV (tblOf (makeAlias s0 0 nA) 0) nA = some "t0" ∧
    lookupKV (tblOf (makeAlias (makeAlias s0 0 nA) 0 nA) 0) nA = some "t1" ∧
    ("t1" : String) ≠ "t0" := by decide

/-- C5 (confirmed): `get_compiled_expr` compiles each distinct node at
most once.  On a miss the produced text is the node's own stored query
text for a pass-through node (no compilation) and the external compile's
output otherwise; the text is stored in the top context's memo keyed by
the node, and every later call — from any context reachable by any
further call sequence — returns the identical cached text without
invoking the compile again. -/
theorem get_compiled_expr_memoizes (compile : CNode → String) (s : St) (c : Nat)
    (n : CNode) (hv : Valid s) (hc : c < s.numCtxs)
    (hmiss : lookupKV (memoOf s (topOf s c)) n = none) :
    ((getCompiledExpr compile s c n).2.1
        = match n.passQuery with
          | some q => q
          | none => compile n) ∧
    ((getCompiledExpr compile s c n).2.2 = n.passQuery.isNone) ∧
    lookupKV (memoOf (getCompiledExpr compile s c n).1 0) n
      = some (getCompiledExpr compile s c n).2.1 ∧
    (∀ (es₂ : List Ev) (c₂ : Nat),
      c₂ < (runEv compile (getCompiledExpr compile s c n).1 es₂).numCtxs →
      getCompiledExpr compile (runEv compile (getCompiledExpr compile s c n).1 es₂) c₂ n
        = (runEv compile (getCompiledExpr compile s c n).1 es₂,
           (getCompiledExpr compile s c n).2.1, false)) := by
  have htopc : topOf s c = 0 := topOf_zero hv c hc
  have h0 : (0 : Nat) < s.numCtxs := hv.2.2.1
  rw [htopc] at hmiss
  cases hq : n.passQuery with
  | some q =>
    have hgce : getCompiledExpr compile s c n = (setMemo s 0 n q, q, false) := by
      simp only [getCompiledExpr, htopc, hmiss, hq]
    have hv' : Valid (setMemo s 0 n q) := valid_setMemo hv h0 n q
    have hhas : lookupKV (memoOf (setMemo s 0 n q) 0) n = some q := by
      rw [memoOf_setMemo_self, lookupKV_setKV_self]
    rw [hgce]
    exact ⟨rfl, rfl, hhas, gce_later hv' hhas⟩
  | none =>
    have h1 : topOf (subcontext s c) c = topOf s c :=
      topOf_congr (chain_subcontext hv hc c)
    have hgce : getCompiledExpr compile s c n
        = (setMemo (subcontext s c) 0 n (compile n), compile n, true) := by
      simp only [getCompiledExpr, htopc, hmiss, hq, h1]
    have hvsub : Valid (subcontext s c) := valid_subcontext hv hc
    have hv' : Valid (setMemo (subcontext s c) 0 n (compile n)) := by
      refine valid_setMemo hvsub ?_ n (compile n)
      show 0 < s.numCtxs + 1
      omega
    have hhas : lookupKV (memoOf (setMemo (subcontext s c) 0 n (compile n)) 0) n
        = some (compile n) := by
      rw [memoOf_setMemo_self, lookupKV_setKV_self]
    rw [hgce]
    exact ⟨rfl, rfl, hhas, gce_later hv' hhas⟩

/-- C5 witness: a pass-through node compiled in the root yields its stored
text `"Q"` with no compile invocation, and a later call from a freshly
spawned subcontext is a pure cache hit returning the identical text. -/
theorem get_compiled_expr_memoizes_witness :
    (getCompiledExpr cf s0 0 nQ).2.1 = "Q" ∧
    (getCompiledExpr cf s0 0 nQ).2.2 = false ∧
    getCompiledExpr cf (runEv cf (getCompiledExpr cf s0 0 nQ).1 [Ev.sub 0]) 1 nQ
      = (runEv cf (getCompiledExpr cf s0 0 nQ).1 [Ev.sub 0], "Q", false) := by
  have h := get_compiled_expr_memoizes cf s0 0 nQ valid_s0 (by decide) (by decide)
  refine ⟨?_, ?_, ?_⟩
  · rw [h.1]
    rfl
  · rw [h.2.1]
    rfl
  · exact h.2.2.2 [Ev.sub 0] 1 (by decide)

/-- C6 (confirmed): translating a scalar-parameter node absent from the
parameter mapping fails with the typed error carrying the parameter node
(`self.context.params[op]` raises `KeyError(op)`), and yields no SQL
text. -/
theorem translate_unbound_param_fails (registry : OpTag → Option (Node → String))
    (params : Node → Option Int) (f : Nat) (id : Nat) (dt : DTy)
    (h : params (.scalarParam id dt) = none) :
    translateF registry params (f+1) (.scalarParam id dt)
      = .error (.paramNotBound (.scalarParam id dt)) := by
  simp only [translateF, applyRewrite, discr, rewriteAt, h]

/-- C6 witness at an empty registry and empty parameter mapping. -/
theorem translate_unbound_param_fails_witness :
    noParams (Node.scalarParam 0 DTy.int) = none ∧
    translateF noReg noParams 1 (Node.scalarParam 0 DTy.int)
      = .error (.paramNotBound (Node.scalarParam 0 DTy.int)) :=
  ⟨rfl, translate_unbound_param_fails noReg noParams 0 0 DTy.int rfl⟩

/-- C7 (confirmed): when the node obtained by the rewrite step has no
rewrite entry and no registry entry for its discriminant and is neither a
scalar parameter nor a whole-relation node, `translate` fails with
`OperationNotDefinedError` naming that discriminant. -/
theorem translate_unregistered_fails (registry : OpTag → Option (Node → String))
    (params : Node → Option Int) (f : Nat) (op : Node)
    (_hrw : rewriteAt (discr (applyRewrite op)) = none)
    (hparam : discr (applyRewrite op) ≠ OpTag.scalarParamT)
    (htable : discr (applyRewrite op) ≠ OpTag.tableNodeT)
    (hreg : registry (discr (applyRewrite op)) = none) :
    translateF registry params (f+1) op
      = .error (.opNotDefined (discr (applyRewrite op))) := by
  cases hop : applyRewrite op
  all_goals rw [hop] at hparam htable hreg
  all_goals simp only [translateF, hop, discr] at hparam htable hreg ⊢
  all_goals first
    | exact absurd rfl hparam
    | exact absurd rfl htable
    | rw [hreg]

/-- C7 witness: a comparison node with no rewrite entry and an empty
registry. -/
theorem translate_unregistered_fails_witness :
    rewriteAt (discr (applyRewrite (Node.less argX argX))) = none ∧
    noReg (discr (applyRewrite (Node.less argX argX))) = none ∧
    translateF noReg noParams 1 (Node.less argX argX)
      = .error (.opNotDefined OpTag.lessT) :=
  ⟨rfl, rfl,
   translate_unregistered_fails noReg noParams 0 (Node.less argX argX) rfl
     (by decide) (by decide) rfl⟩

/-- C8 (confirmed): the concrete bucket boundary cases.  With boundaries
`[0, 10, 20]`, closed=`left`, no flags: the produced CASE has exactly the
two branches `0 ≤ v < 10 → 0` and `10 ≤ v < 20 → 1` and no else-branch;
value `0` maps to bucket `0`, `10` to bucket `1`, `20` to null.  With
`include_over`, value `20` maps to bucket `2`.  With closed=`right` and
`close_extreme`, value `0` falls into the adjusted first branch
`0 ≤ v ≤ 10` (bucket `0`). -/
theorem bucket_boundary_cases :
    bucketRw (.bucket argX [0, 10, 20] .left false false false)
      = Node.searchedCase
          [.andN (.lessEqual (.lit 0 .int) argX) (.less argX (.lit 10 .int)),
           .andN (.lessEqual (.lit 10 .int) argX) (.less argX (.lit 20 .int))]
          [.lit 0 .int, .lit 1 .int] none ∧
    evalSC (fun _ => 0) (bucketRw (.bucket argX [0, 10, 20] .left false false false))
      = some 0 ∧
    evalSC (fun _ => 10) (bucketRw (.bucket argX [0, 10, 20] .left false false false))
      = some 1 ∧
    evalSC (fun _ => 20) (bucketRw (.bucket argX [0, 10, 20] .left false false false))
      = none ∧
    evalSC (fun _ => 20) (bucketRw (.bucket argX [0, 10, 20] .left false false true))
      = some 2 ∧
    evalSC (fun _ => 0) (bucketRw (.bucket argX [0, 10, 20] .right true false false))
      = some 0 ∧
    underCondOf (bucketRw (.bucket argX [0, 10, 20] .right true false false))
      = some (Node.andN (.lessEqual (.lit 0 .int) argX) (.lessEqual argX (.lit 10 .int))) :=
  ⟨rfl, by decide, by decide, by decide, by decide, by decide, rfl⟩

/-- C9 (corrected): the under-catch-all comparator of the bucket rewrite.
With at least two interior intervals: strict-less when `close_extreme` is
set, and otherwise the interval's **upper** comparator — `<` for
closed=`left` and `≤` for closed=`right` (the claim's "lower comparator,
≤ for left / < for right" is the swap of what the code emits, see the
counterexample).  With zero interior intervals: `≤` for closed=`right`,
`<` for closed=`left`. -/
theorem bucket_under_branch_comparator (arg : Node) (buckets : List Int)
    (closed : Closed) (ce io : Bool) :
    (((buckets.length : Int) - 1 > 1 ∧ ce = true →
      underCondOf (bucketRw (.bucket arg buckets closed ce true io))
        = some (Node.less arg (.lit (buckets.headD 0) .int))) ∧
     ((buckets.length : Int) - 1 > 1 ∧ ce = false →
      underCondOf (bucketRw (.bucket arg buckets closed ce true io))
        = some ((if closed = .left then Node.less else Node.lessEqual) arg
            (.lit (buckets.headD 0) .int))) ∧
     (buckets.length = 1 →
      underCondOf (bucketRw (.bucket arg buckets closed ce true io))
        = some ((if closed = .right then Node.lessEqual else Node.less) arg
            (.lit (buckets.headD 0) .int)))) := by
  refine ⟨?_, ?_, ?_⟩
  · rintro ⟨hlen, rfl⟩
    rw [bucketRw_underCond,
      if_pos (show (buckets.length : Int) - 1 > 0 from by omega)]
    rfl
  · rintro ⟨hlen, rfl⟩
    rw [bucketRw_underCond,
      if_pos (show (buckets.length : Int) - 1 > 0 from by omega)]
    cases closed <;> rfl
  · intro hlen
    rw [bucketRw_underCond,
      if_neg (show ¬((buckets.length : Int) - 1 > 0) from by rw [hlen]; norm_num)]

/-- C9 witness: the three comparator cases at concrete parameters —
`close_extreme` with `[0,10,20]` gives strict `<`; without it,
closed=`right` gives `≤`; a single boundary with closed=`right` gives
`≤`. -/
theorem bucket_under_branch_comparator_witness :
    underCondOf (bucketRw (.bucket argX [0, 10, 20] .left true true false))
      = some (Node.less argX (.lit 0 .int)) ∧
    underCondOf (bucketRw (.bucket argX [0, 10, 20] .right false true false))
      = some (Node.lessEqual argX (.lit 0 .int)) ∧
    underCondOf (bucketRw (.bucket argX [5] .right false true false))
      = some (Node.lessEqual argX (.lit 5 .int)) :=
  ⟨(bucket_under_branch_comparator argX [0, 10, 20] .left true false).1
     ⟨by decide, rfl⟩,
   (bucket_under_branch_comparator argX [0, 10, 20] .right false false).2.1
     ⟨by decide, rfl⟩,
   (bucket_under_branch_comparator argX [5] .right false false).2.2 rfl⟩

/-- C9 counterexample: with boundaries `[0,10,20]`, closed=`left`,
`close_extreme` unset and `include_under` set, the emitted under branch is
the strict `v < 0`, not the `v ≤ 0` that the claim's "interval's lower
comparator (≤ for closed='left')" prescribes. -/
theorem bucket_under_left_is_strict_less :
    underCondOf (bucketRw (.bucket argX [0, 10, 20] .left false true false))
      = some (Node.less argX (.lit 0 .int)) ∧
    some (Node.less argX (.lit 0 .int)) ≠ some (Node.lessEqual argX (.lit 0 .int)) :=
  ⟨rfl, fun h => Node.noConfusion (Option.some.inj h)⟩

/-- C10 (confirmed): the bucket rewrite names its CASE after the bucketed
**argument** when that argument has a display name, while the
category-label rewrite names its CASE after the `CategoryLabel` node
itself when that node has one. -/
theorem rewrite_name_preservation :
    (∀ (arg : Node) (buckets : List Int) (closed : Closed) (ce iu io : Bool),
      (nameOf arg).isSome = true →
      nameOf (bucketRw (.bucket arg buckets closed ce iu io)) = nameOf arg) ∧
    (∀ (arg : Node) (labels : List String) (nulls : Option String) (nm : Option String),
      nm.isSome = true →
      nameOf (categoryLabelRw (.categoryLabel arg labels nulls nm)) = nm) :=
  ⟨fun _ _ _ _ _ _ _ => rfl, fun _ _ _ _ _ => rfl⟩

/-- C10 witness: a named bucketed column propagates its name; a named
`CategoryLabel` node propagates its own name. -/
theorem rewrite_name_preservation_witness :
    (nameOf argNamed).isSome = true ∧
    nameOf (bucketRw (.bucket argNamed [0, 10] .left false false false)) = some "v" ∧
    nameOf (categoryLabelRw (.categoryLabel argX ["a", "b"] none (some "lbl")))
      = some "lbl" :=
  ⟨rfl,
   rewrite_name_preservation.1 argNamed [0, 10] .left false false false rfl,
   rewrite_name_preservation.2 argX ["a", "b"] none (some "lbl") rfl⟩
